import Mathlib

/-!
Shallow embedding of the annoy-go read-only ANN index (package annoy).

Modelling conventions:
* Go byte slices become `List Nat` (one entry per byte); reads use a default
  of 0 out of range.  In the program all reads on the hot path are in range
  (the spec makes out-of-range node indices a contract precondition), so the
  totalisation is benign for the claims settled here.
* Go `float32` values are modelled as exact rationals.  The bit-level IEEE-754
  decoding of a 4-byte little-endian word is kept abstract as a parameter
  `f32 : Nat -> Rat` applied to the raw 32-bit word, and the square root used
  by the angular metric is kept abstract as a parameter `sq : Rat -> Rat`;
  every theorem is parametric in both unless it evaluates a concrete run
  whose result does not depend on them.
* Priorities in the search frontier can be the IEEE +infinity that the code
  pushes for roots, so they live in `WithTop Rat`.
* Go `container/heap` with the program's `Less` pops a value that is maximal
  by (priority, then node index); ties in that order force equal pair values,
  so popping is modelled as removing one occurrence of the maximal pair value.
* The node cache is a `map[int32]*Node`; it is modelled as an association
  list threaded through the computations that consult it.  Looking a key up
  finds the most recently inserted binding, which matches map semantics
  because a key is inserted at most once.
-/

namespace AnnoyGo

/-- Priority value stored in the search frontier: a float32 that may be the
positive infinity pushed for roots. -/
abbrev Pr := WithTop ℚ

/-- Read one byte, 0 when out of range (in-range in all actual uses). -/
def bget (nodes : List ℕ) (off : ℤ) : ℕ :=
  if off < 0 then 0 else nodes.getD off.toNat 0

/-- binary.LittleEndian.Uint32 of the four bytes at offset off. -/
def readLE32 (nodes : List ℕ) (off : ℤ) : ℕ :=
  bget nodes off + 256 * bget nodes (off + 1) + 65536 * bget nodes (off + 2) +
    16777216 * bget nodes (off + 3)

/-- int32 reinterpretation of a 32-bit word. -/
def toInt32 (u : ℕ) : ℤ :=
  if u % 2 ^ 32 < 2 ^ 31 then (u % 2 ^ 32 : ℤ) else (u % 2 ^ 32 : ℤ) - 2 ^ 32

/-- Node as decoded from the byte region (type Node in distance.go). -/
structure Node where
  Descendants : ℤ
  Children : List ℤ
  Norm : ℚ
  V : List ℚ
deriving DecidableEq

/-- GetNodePtr (the fixed-stride node decoder). -/
def GetNodePtr (f32 : ℕ → ℚ) (nodes : List ℕ) (size : ℕ) (i : ℤ) : Node :=
  let arrSize : ℕ := (size - 12) / 4
  let base : ℤ := (size : ℤ) * i
  let d : ℤ := toInt32 (readLE32 nodes base)
  if 2 < d ∧ d ≤ (arrSize : ℤ) + 2 then
    { Descendants := d
      Children := (List.range (arrSize + 2)).map
        (fun j => toInt32 (readLE32 nodes (base + 4 + 4 * (j : ℤ))))
      Norm := 0
      V := [] }
  else
    { Descendants := d
      Children := (List.range 2).map
        (fun j => toInt32 (readLE32 nodes (base + 4 + 4 * (j : ℤ))))
      Norm := 0
      V := (List.range arrSize).map
        (fun j => f32 (readLE32 nodes (base + 12 + 4 * (j : ℤ)))) }

/-- Dot product over the first f coordinates (function Dot). -/
def Dot (x y : List ℚ) (f : ℕ) : ℚ :=
  (List.range f).foldl (fun s z => s + x.getD z 0 * y.getD z 0) 0

/-- Angular.Distance. -/
def Distance (sq : ℚ → ℚ) (x y : Node) (f : ℕ) : ℚ :=
  let pp : ℚ := if x.Norm = 0 then Dot x.V x.V f else x.Norm
  let qq : ℚ := if y.Norm = 0 then Dot y.V y.V f else y.Norm
  let ppqq : ℚ := pp * qq
  if 0 < ppqq then 2 - 2 * Dot x.V y.V f / sq ppqq else 2

/-- Angular.NormalizeDistance. -/
def NormalizeDistance (sq : ℚ → ℚ) (distance : ℚ) : ℚ :=
  sq (max distance 0)

/-- Angular.InitNode: cache the squared norm on the node. -/
def InitNode (node : Node) (f : ℕ) : Node :=
  { node with Norm := Dot node.V node.V f }

/-- Angular.Margin. -/
def Margin (n : Node) (y : List ℚ) (f : ℕ) : ℚ :=
  Dot n.V y f

/-- Angular.PQDistance: slot 0 negates the margin, then min with the bound. -/
def PQDistance (distance : Pr) (margin : ℚ) (childNr : ℕ) : Pr :=
  let m : ℚ := if childNr = 0 then -margin else margin
  min distance (m : Pr)

/-- The strict order in which the program's PriorityQueue pops: higher
priority first, ties broken by larger node index (PriorityQueue.Less). -/
def pqLt (a b : Pr × ℤ) : Prop :=
  a.1 < b.1 ∨ (a.1 = b.1 ∧ a.2 < b.2)

instance (a b : Pr × ℤ) : Decidable (pqLt a b) := by
  unfold pqLt; infer_instance

/-- Maximal element of a nonempty frontier in the pop order. -/
def pqMaxElem (x : Pr × ℤ) (xs : List (Pr × ℤ)) : Pr × ℤ :=
  xs.foldl (fun a b => if pqLt a b then b else a) x

/-- Remove the first occurrence of a pair from the frontier. -/
def pqErase : List (Pr × ℤ) → (Pr × ℤ) → List (Pr × ℤ)
  | [], _ => []
  | x :: xs, m => if x = m then xs else x :: pqErase xs m

/-- heap.Pop on the program's PriorityQueue: remove and return the pair that
is maximal in the pop order (the multiset of pending pairs is kept as a
list; heap-internal layout is not observable through Pop). -/
def pqPop : List (Pr × ℤ) → Option ((Pr × ℤ) × List (Pr × ℤ))
  | [] => none
  | x :: xs =>
    let m := pqMaxElem x xs
    some (m, pqErase (x :: xs) m)

/-- One iteration body of the getAllNns search loop, parametric in the node
fetch function (index.getNode), which may thread a cache state sigma. -/
def qStep {σ : Type} (get : σ → ℤ → Node × σ) (f : ℕ) (k nItems : ℤ)
    (v : List ℚ) (pq : List (Pr × ℤ)) (nns : List ℤ) (s : σ) :
    List (Pr × ℤ) × List ℤ × σ :=
  match pqPop pq with
  | none => (pq, nns, s)
  | some ((d, i), pq1) =>
    let (nd, s1) := get s i
    if nd.Descendants = 1 ∧ i < nItems then (pq1, nns ++ [i], s1)
    else if nd.Descendants ≤ k then
      (pq1, nns ++ nd.Children.take nd.Descendants.toNat, s1)
    else
      let margin := Margin nd v f
      ((PQDistance d margin 0, nd.Children.getD 0 0) ::
        (PQDistance d margin 1, nd.Children.getD 1 0) :: pq1, nns, s1)

/-- The getAllNns search loop, fuel-indexed: none means the fuel ran out
before the loop condition failed. -/
def qLoop {σ : Type} (get : σ → ℤ → Node × σ) (f : ℕ) (k nItems : ℤ)
    (v : List ℚ) (searchK : ℤ) :
    ℕ → List (Pr × ℤ) → List ℤ → σ → Option (List ℤ × σ)
  | 0, pq, nns, s =>
    if (nns.length : ℤ) < searchK ∧ pq ≠ [] then none else some (nns, s)
  | fuel + 1, pq, nns, s =>
    if (nns.length : ℤ) < searchK ∧ pq ≠ [] then
      match qStep get f k nItems v pq nns s with
      | (pq1, nns1, s1) => qLoop get f k nItems v searchK fuel pq1 nns1 s1
    else some (nns, s)

/-- Iteration over the candidate map nnSet: each candidate exactly once.  Go
map iteration order is unspecified; first-occurrence order is the canonical
deterministic resolution used throughout this development. -/
def dedupFO (l : List ℤ) : List ℤ :=
  l.foldl (fun acc j => if j ∈ acc then acc else acc ++ [j]) []

/-- Insert a distance pair into a list sorted ascending by distance. -/
def insertPair (a : ℚ × ℤ) : List (ℚ × ℤ) → List (ℚ × ℤ)
  | [] => [a]
  | b :: rest => if a.1 < b.1 then a :: b :: rest else b :: insertPair a rest

/-- sort.Slice on the distance pairs with the program's less function
(first component ascending).  Go's sort.Slice is an unstable sort fed in
map-iteration order, so the order of equal-distance pairs is unspecified
there; this structural sort is the deterministic resolution used here. -/
def sortPairs : List (ℚ × ℤ) → List (ℚ × ℤ)
  | [] => []
  | a :: rest => insertPair a (sortPairs rest)

/-- Per-candidate step of the result-building pass: fetch the node (and a
second time for the Distance argument, as the code does), keep a distance
pair only for singleton leaves. -/
def fnStep {σ : Type} (get : σ → ℤ → Node × σ) (sq : ℚ → ℚ) (f : ℕ)
    (vNode : Node) (acc : List (ℚ × ℤ) × σ) (j : ℤ) : List (ℚ × ℤ) × σ :=
  let (nd, s1) := get acc.2 j
  if nd.Descendants = 1 then
    let (nd2, s2) := get s1 j
    ((Distance sq vNode nd2 f, j) :: acc.1, s2)
  else (acc.1, s1)

/-- The tail of getAllNns after the search loop: deduplicate, keep the
distance pairs of candidates that decode to singleton leaves (the slots
preallocated for the other unique candidates keep their zero value, exactly
as the Go code leaves them), sort by distance, truncate, normalize. -/
def finalizeNns {σ : Type} (get : σ → ℤ → Node × σ) (sq : ℚ → ℚ) (f : ℕ)
    (vNode : Node) (nns : List ℤ) (n : ℤ) (s : σ) :
    (List ℤ × List ℚ) × σ :=
  let uniq := dedupFO nns
  let build := uniq.foldl (fnStep get sq f vNode) ([], s)
  let leafPairs := build.1.reverse
  let nnsDist := leafPairs ++ List.replicate (uniq.length - leafPairs.length) ((0 : ℚ), (0 : ℤ))
  let m : ℤ := (nnsDist.length : ℤ)
  let p : ℤ := if m < n then m else n
  let sorted := sortPairs nnsDist
  let taken := sorted.take p.toNat
  ((taken.map (fun a => a.2), taken.map (fun a => NormalizeDistance sq a.1)), build.2)

/-- index.getAllNns, fuel-indexed and parametric in the node fetch. -/
def getAllNnsS {σ : Type} (get : σ → ℤ → Node × σ) (sq : ℚ → ℚ) (f : ℕ)
    (k nItems : ℤ) (roots : List ℤ) (v : List ℚ) (n searchK : ℤ)
    (fuel : ℕ) (s : σ) : Option ((List ℤ × List ℚ) × σ) :=
  let vNode := InitNode
    { Descendants := 0, Children := [], Norm := 0
      V := (List.range f).map (fun z => v.getD z 0) } f
  let searchK1 := if searchK = -1 then n * (roots.length : ℤ) else searchK
  let pq0 : List (Pr × ℤ) := roots.map (fun r => ((⊤ : Pr), r))
  match qLoop get f k nItems v searchK1 fuel pq0 [] s with
  | none => none
  | some (nns, s1) => some (finalizeNns get sq f vNode nns n s1)

/-- Stateless node fetch built from a pure node function. -/
def pureGet (g : ℤ → Node) : Unit → ℤ → Node × Unit :=
  fun _ i => (g i, ())

/-- The node cache map, keyed by node index. -/
abbrev Cache := List (ℤ × Node)

/-- Map lookup on the cache. -/
def cacheLookup (c : Cache) (i : ℤ) : Option Node :=
  (c.find? (fun e => decide (e.1 = i))).map (fun e => e.2)

/-- index.getNode: when backed by a mapping, decode directly; otherwise
consult the cache, and on a miss decode, store, and initialize the node
when it carries a vector (the stored pointer is the initialized node).
A decoded node with an empty vector list stands both for the nil vector of
the children-only branch and for a zero-dimensional vector, on which
InitNode would only rewrite Norm with the empty dot product 0. -/
def getNodeC (f32 : ℕ → ℚ) (nodes : List ℕ) (size : ℕ) (f : ℕ)
    (mapped : Bool) (c : Cache) (i : ℤ) : Node × Cache :=
  if mapped then (GetNodePtr f32 nodes size i, c)
  else
    match cacheLookup c i with
    | some nd => (nd, c)
    | none =>
      let nd := GetNodePtr f32 nodes size i
      let nd1 := if nd.V = [] then nd else InitNode nd f
      (nd1, (i, nd1) :: c)

/-- The AnnoyIndex state: fdOpen models fd being non-nil, mapped models the
mmap field being non-nil, nodes models the backing byte slice (none = nil). -/
structure AnnoyIndex where
  f : ℕ
  s : ℕ
  k : ℤ
  nItems : ℤ
  nNodes : ℤ
  nodes : Option (List ℕ)
  roots : List ℤ
  cache : Cache
  fdOpen : Bool
  mapped : Bool
deriving DecidableEq

/-- NewAnnoyIndex. -/
def NewAnnoyIndex (f : ℕ) : AnnoyIndex :=
  { f := f
    s := 12 + f * 4
    k := ((12 + (f : ℤ) * 4) - 4) / 4
    nItems := 0
    nNodes := 0
    nodes := none
    roots := []
    cache := []
    fdOpen := false
    mapped := false }

/-- index.reinitialize: note that the cache is not touched. -/
def reinitialize (idx : AnnoyIndex) : AnnoyIndex :=
  { idx with fdOpen := false, nodes := none, nItems := 0, nNodes := 0, roots := [] }

/-- index.Unload, success path of the unmap/close calls. -/
def Unload (idx : AnnoyIndex) : AnnoyIndex :=
  let idx1 :=
    if idx.fdOpen then { idx with mapped := false }
    else if idx.nodes ≠ none then { idx with nodes := none }
    else idx
  reinitialize idx1

/-- The root-discovery scan of index.Load: walk the given node indices,
collecting while the sentinel is -1 or the descendant count repeats,
threading through index.getNode whatever state it carries. -/
def rootScanAux {σ : Type} (get : σ → ℤ → Node × σ) :
    List ℤ → ℤ → σ → List ℤ × ℤ × σ
  | [], m, c => ([], m, c)
  | i :: rest, m, c =>
    let (nd, c1) := get c i
    if m = -1 ∨ nd.Descendants = m then
      let r := rootScanAux get rest nd.Descendants c1
      (i :: r.1, r.2.1, r.2.2)
    else ([], m, c1)

/-- index.Load on the bytes of the opened file; the Bool is true when Load
returns an error.  The fd is assigned before any validation, exactly as in
the code, so a failed validation leaves everything else untouched. -/
def Load (f32 : ℕ → ℚ) (idx : AnnoyIndex) (fileBytes : List ℕ)
    (memory : Bool) : AnnoyIndex × Bool :=
  let idx := { idx with fdOpen := true }
  if fileBytes.length = 0 then (idx, true)
  else if fileBytes.length % idx.s ≠ 0 then (idx, true)
  else
    let idx := if memory then { idx with mapped := false, nodes := some fileBytes }
               else { idx with mapped := true, nodes := some fileBytes }
    let nN : ℕ := fileBytes.length / idx.s
    let idxList : List ℤ := ((List.range nN).reverse).map (fun j => (j : ℤ))
    let scan := rootScanAux (getNodeC f32 fileBytes idx.s idx.f idx.mapped) idxList (-1) idx.cache
    let roots0 := scan.1
    let m := scan.2.1
    let c1 := scan.2.2
    let post :=
      if 1 < roots0.length then
        let (ndA, ca) := getNodeC f32 fileBytes idx.s idx.f idx.mapped c1 (roots0.headD 0)
        let (ndB, cb) := getNodeC f32 fileBytes idx.s idx.f idx.mapped ca (roots0.getLastD 0)
        if ndA.Children.getD 0 0 = ndB.Children.getD 0 0 then (roots0.dropLast, cb)
        else (roots0, cb)
      else (roots0, c1)
    ({ idx with nNodes := (nN : ℤ), roots := post.1, nItems := m, cache := post.2 }, false)

/-- index.GetNnsByVector on a loaded index, fuel-indexed. -/
def GetNnsByVector (sq : ℚ → ℚ) (f32 : ℕ → ℚ) (idx : AnnoyIndex)
    (v : List ℚ) (n searchK : ℤ) (fuel : ℕ) :
    Option ((List ℤ × List ℚ) × Cache) :=
  getAllNnsS (getNodeC f32 (idx.nodes.getD []) idx.s idx.f idx.mapped)
    sq idx.f idx.k idx.nItems idx.roots v n searchK fuel idx.cache

/-- Load into a fresh index and query: the full pipeline of one mode.
Returns none when Load reports an error or the fuel ran out. -/
def loadAndQuery (sq : ℚ → ℚ) (f32 : ℕ → ℚ) (fileBytes : List ℕ) (f : ℕ)
    (memory : Bool) (v : List ℚ) (n searchK : ℤ) (fuel : ℕ) :
    Option (List ℤ × List ℚ) :=
  let r := Load f32 (NewAnnoyIndex f) fileBytes memory
  if r.2 then none
  else (GetNnsByVector sq f32 r.1 v n searchK fuel).map (fun a => a.1)

/-- The squared norm a distance computation effectively uses for a node: the
cached value, or the dot product of the vector with itself when the cached
value is 0. -/
def effNorm (f : ℕ) (n : Node) : ℚ :=
  if n.Norm = 0 then Dot n.V n.V f else n.Norm

/-- What two nodes must share for every query-path computation (branching,
children, margins, distances) to coincide on them. -/
def obsEq (f : ℕ) (a b : Node) : Prop :=
  a.Descendants = b.Descendants ∧ a.Children = b.Children ∧ a.V = b.V ∧
    effNorm f a = effNorm f b

/-- Decode a node and initialize it when it carries a vector: the value the
cache stores for a node index. -/
def decodeInit (f32 : ℕ → ℚ) (nodes : List ℕ) (size : ℕ) (f : ℕ) (i : ℤ) : Node :=
  let nd := GetNodePtr f32 nodes size i
  if nd.V = [] then nd else InitNode nd f

/-- Cache consistency with a byte region: every stored node is the decoded,
initialized node of its index.  This holds for the empty cache and is
preserved by every cache-filling operation over the same bytes. -/
def CInv (f32 : ℕ → ℚ) (nodes : List ℕ) (size : ℕ) (f : ℕ) (c : Cache) : Prop :=
  ∀ i nd, cacheLookup c i = some nd → nd = decodeInit f32 nodes size f i

/-- Simulation between two node-fetch functions: related states fetch
observationally equal nodes and stay related. -/
def GetSim {σ₁ σ₂ : Type} (f : ℕ) (g₁ : σ₁ → ℤ → Node × σ₁)
    (g₂ : σ₂ → ℤ → Node × σ₂) (R : σ₁ → σ₂ → Prop) : Prop :=
  ∀ s₁ s₂ i, R s₁ s₂ →
    obsEq f ((g₁ s₁ i).1) ((g₂ s₂ i).1) ∧ R ((g₁ s₁ i).2) ((g₂ s₂ i).2)

/-- The root scan with a pure descendant function; reference point for both
backing modes. -/
def pureRootScanAux (desc : ℤ → ℤ) : List ℤ → ℤ → List ℤ × ℤ
  | [], m => ([], m)
  | i :: rest, m =>
    if m = -1 ∨ desc i = m then
      let r := pureRootScanAux desc rest (desc i)
      (i :: r.1, r.2)
    else ([], m)

/-- Root collection as claim C2 words it: keep collecting exactly while the
descendant value equals the first visited node's value m. -/
def claimRootScanAux (desc : ℤ → ℤ) (m : ℤ) : List ℤ → List ℤ
  | [] => []
  | i :: rest => if desc i = m then i :: claimRootScanAux desc m rest else []

/-- Root discovery as claim C2 words it: m is the descendants value of the
first node visited, collection continues while equal to m. -/
def claimRootScan (desc : ℤ → ℤ) : List ℤ → List ℤ × ℤ
  | [] => ([], -1)
  | i :: rest => (i :: claimRootScanAux desc (desc i) rest, desc i)

/-- The post-scan deduplication step as claim C2 words it. -/
def claimDedup (firstChild : ℤ → ℤ) (roots : List ℤ) : List ℤ :=
  if 1 < roots.length ∧ firstChild (roots.headD 0) = firstChild (roots.getLastD 0) then
    roots.dropLast
  else roots

/-- Reference semantics of the load path on the raw bytes: the roots list
(after the duplicate-root drop) and the shared descendant value, computed
with the pure decoder.  Both backing modes of Load produce exactly this. -/
def loadSpec (f32 : ℕ → ℚ) (bytes : List ℕ) (s : ℕ) : List ℤ × ℤ :=
  let nN := bytes.length / s
  let idxList : List ℤ := ((List.range nN).reverse).map (fun j => (j : ℤ))
  let desc := fun i => (GetNodePtr f32 bytes s i).Descendants
  let scan := pureRootScanAux desc idxList (-1)
  let fc := fun i => (GetNodePtr f32 bytes s i).Children.getD 0 0
  let roots1 :=
    if 1 < scan.1.length ∧ fc (scan.1.headD 0) = fc (scan.1.getLastD 0) then
      scan.1.dropLast
    else scan.1
  (roots1, scan.2)

/-- Termination measure for the search loop: split nodes strictly shrink it
because a popped contribution 3 to the power h i is replaced by at most two
contributions of strictly smaller exponent. -/
def pqMeasure (h : ℤ → ℕ) (pq : List (Pr × ℤ)) : ℕ :=
  (pq.map (fun e => 3 ^ h e.2)).sum

/-- One record, dimensionality 1, descendants = 2: node capacity is K = 3,
so claim C1 puts it in the children-only class, while the decoder's branch
condition (descendants greater than 2) sends it to the vector branch. -/
def C1bytes : List ℕ := [2, 0, 0, 0, 7, 0, 0, 0, 9, 0, 0, 0, 0, 0, 0, 0]

/-- Two records, dimensionality 1.  The scan starts at node 1, whose
descendants field is -1, the sentinel value of the scan: the code keeps
collecting node 0 (descendants 7) although its count differs. -/
def C2bytes : List ℕ :=
  [7, 0, 0, 0, 6, 0, 0, 0, 0, 0, 0, 0, 0, 0, 0, 0] ++
  [255, 255, 255, 255, 5, 0, 0, 0, 0, 0, 0, 0, 0, 0, 0, 0]

/-- A valid two-record fixture whose top node's descendants field is 1 (not
the sentinel), used to instantiate hypotheses about well-behaved files. -/
def C2goodBytes : List ℕ :=
  [1, 0, 0, 0, 6, 0, 0, 0, 0, 0, 0, 0, 0, 0, 0, 0] ++
  [1, 0, 0, 0, 5, 0, 0, 0, 0, 0, 0, 0, 0, 0, 0, 0]

/-- Two records, dimensionality 1: node 1 is a bucket (descendants 2) whose
two children are both node 0, and node 0 has descendants 0, so the index
has one unique candidate and zero singleton-leaf candidates. -/
def C4bytes : List ℕ :=
  [0, 0, 0, 0, 0, 0, 0, 0, 0, 0, 0, 0, 0, 0, 0, 0] ++
  [2, 0, 0, 0, 0, 0, 0, 0, 0, 0, 0, 0, 0, 0, 0, 0]

/-- One record, dimensionality 1: a split node (descendants 4 exceeds K = 3)
whose both children are the node itself — a cyclic child graph on which the
search loop never finishes. -/
def C10bytes : List ℕ := [4, 0, 0, 0, 0, 0, 0, 0, 0, 0, 0, 0, 0, 0, 0, 0]

theorem pqLt_irrefl (a : Pr × ℤ) : ¬ pqLt a a := by
  simp [pqLt]

theorem pqLt_trans {a b c : Pr × ℤ} (h1 : pqLt a b) (h2 : pqLt b c) : pqLt a c := by
  rcases h1 with h1 | ⟨h1e, h1i⟩ <;> rcases h2 with h2 | ⟨h2e, h2i⟩
  · exact Or.inl (lt_trans h1 h2)
  · exact Or.inl (h1.trans_le h2e.le)
  · exact Or.inl (h1e.le.trans_lt h2)
  · exact Or.inr ⟨h1e.trans h2e, lt_trans h1i h2i⟩

theorem pqLt_resolve {a b : Pr × ℤ} (h : ¬ pqLt a b) : b = a ∨ pqLt b a := by
  rcases lt_trichotomy a.1 b.1 with hlt | heq | hgt
  · exact absurd (Or.inl hlt) h
  · rcases lt_trichotomy a.2 b.2 with hlt2 | heq2 | hgt2
    · exact absurd (Or.inr ⟨heq, hlt2⟩) h
    · exact Or.inl (Prod.ext heq.symm heq2.symm)
    · exact Or.inr (Or.inr ⟨heq.symm, hgt2⟩)
  · exact Or.inr (Or.inl hgt)

theorem pqMaxElem_spec (x : Pr × ℤ) (xs : List (Pr × ℤ)) :
    pqMaxElem x xs ∈ x :: xs ∧ ∀ e ∈ x :: xs, ¬ pqLt (pqMaxElem x xs) e := by
  induction xs generalizing x with
  | nil =>
    refine ⟨List.mem_singleton.mpr rfl, ?_⟩
    intro e he
    rw [List.mem_singleton] at he
    rw [he]
    exact pqLt_irrefl x
  | cons b xs ih =>
    by_cases hxb : pqLt x b
    · have hstep : pqMaxElem x (b :: xs) = pqMaxElem b xs := by
        simp only [pqMaxElem, List.foldl_cons, if_pos hxb]
      obtain ⟨ihmem, ihmax⟩ := ih b
      rw [hstep]
      refine ⟨?_, ?_⟩
      · rcases List.mem_cons.mp ihmem with hh | ht
        · rw [hh]
          exact List.mem_cons_of_mem _ (List.mem_cons_self _ _)
        · exact List.mem_cons_of_mem _ (List.mem_cons_of_mem _ ht)
      · intro e he
        rcases List.mem_cons.mp he with he | he
        · subst he
          intro hMe
          exact ihmax b (List.mem_cons_self _ _) (pqLt_trans hMe hxb)
        · exact ihmax e he
    · have hstep : pqMaxElem x (b :: xs) = pqMaxElem x xs := by
        simp only [pqMaxElem, List.foldl_cons, if_neg hxb]
      obtain ⟨ihmem, ihmax⟩ := ih x
      rw [hstep]
      refine ⟨?_, ?_⟩
      · rcases List.mem_cons.mp ihmem with hh | ht
        · rw [hh]
          exact List.mem_cons_self _ _
        · exact List.mem_cons_of_mem _ (List.mem_cons_of_mem _ ht)
      · intro e he
        rcases List.mem_cons.mp he with he | he
        · subst he
          exact ihmax e (List.mem_cons_self _ _)
        rcases List.mem_cons.mp he with he | he
        · subst he
          intro hMe
          rcases pqLt_resolve hxb with hbx | hbx
          · exact ihmax x (List.mem_cons_self _ _) (hbx ▸ hMe)
          · exact ihmax x (List.mem_cons_self _ _) (pqLt_trans hMe hbx)
        · exact ihmax e (List.mem_cons_of_mem _ he)

theorem pqErase_perm {m : Pr × ℤ} : ∀ {pq : List (Pr × ℤ)}, m ∈ pq →
    pq.Perm (m :: pqErase pq m) := by
  intro pq
  induction pq with
  | nil => intro h; cases h
  | cons x xs ih =>
    intro hmem
    by_cases hx : x = m
    · subst hx
      rw [pqErase, if_pos rfl]
    · rcases List.mem_cons.mp hmem with hh | ht
      · exact absurd hh.symm hx
      · rw [pqErase, if_neg hx]
        exact (List.Perm.cons x (ih ht)).trans (List.Perm.swap m x _)

theorem pqPop_spec {pq : List (Pr × ℤ)} {m : Pr × ℤ} {pq1 : List (Pr × ℤ)}
    (h : pqPop pq = some (m, pq1)) :
    m ∈ pq ∧ pq1 = pqErase pq m ∧ ∀ e ∈ pq, ¬ pqLt m e := by
  cases pq with
  | nil => simp [pqPop] at h
  | cons x xs =>
    have h1 : pqMaxElem x xs = m ∧ pqErase (x :: xs) (pqMaxElem x xs) = pq1 := by
      simpa [pqPop] using h
    obtain ⟨hm, hpq1⟩ := h1
    subst hm
    exact ⟨(pqMaxElem_spec x xs).1, hpq1.symm, (pqMaxElem_spec x xs).2⟩

theorem pqPop_perm {pq : List (Pr × ℤ)} {m : Pr × ℤ} {pq1 : List (Pr × ℤ)}
    (h : pqPop pq = some (m, pq1)) : pq.Perm (m :: pq1) := by
  obtain ⟨hmem, herase, _⟩ := pqPop_spec h
  rw [herase]
  exact pqErase_perm hmem

theorem pqPop_isSome {pq : List (Pr × ℤ)} (h : pq ≠ []) :
    ∃ m pq1, pqPop pq = some (m, pq1) := by
  cases pq with
  | nil => exact absurd rfl h
  | cons x xs => exact ⟨pqMaxElem x xs, pqErase (x :: xs) (pqMaxElem x xs), rfl⟩

theorem GetNodePtr_norm (f32 : ℕ → ℚ) (nodes : List ℕ) (size : ℕ) (i : ℤ) :
    (GetNodePtr f32 nodes size i).Norm = 0 := by
  simp only [GetNodePtr]
  split <;> rfl

theorem obsEq_refl (f : ℕ) (a : Node) : obsEq f a a :=
  ⟨rfl, rfl, rfl, rfl⟩

theorem Distance_eq_eff (sq : ℚ → ℚ) (x y : Node) (f : ℕ) :
    Distance sq x y f =
      if 0 < effNorm f x * effNorm f y then
        2 - 2 * Dot x.V y.V f / sq (effNorm f x * effNorm f y)
      else 2 := rfl

theorem Distance_obsEq (sq : ℚ → ℚ) (x : Node) (f : ℕ) {a b : Node}
    (h : obsEq f a b) : Distance sq x a f = Distance sq x b f := by
  obtain ⟨_, _, hV, hN⟩ := h
  rw [Distance_eq_eff, Distance_eq_eff, hN, hV]

theorem Margin_obsEq {f : ℕ} {a b : Node} (v : List ℚ) (h : obsEq f a b) :
    Margin a v f = Margin b v f := by
  unfold Margin
  rw [h.2.2.1]

theorem effNorm_initNode (nd : Node) (f : ℕ) :
    effNorm f (InitNode nd f) = Dot nd.V nd.V f := by
  unfold effNorm InitNode
  split <;> rfl

theorem obsEq_decodeInit (f32 : ℕ → ℚ) (nodes : List ℕ) (size f : ℕ) (i : ℤ) :
    obsEq f (decodeInit f32 nodes size f i) (GetNodePtr f32 nodes size i) := by
  unfold decodeInit
  by_cases hV : (GetNodePtr f32 nodes size i).V = []
  · rw [if_pos hV]
    exact obsEq_refl _ _
  · rw [if_neg hV]
    refine ⟨rfl, rfl, rfl, ?_⟩
    rw [effNorm_initNode]
    unfold effNorm
    rw [if_pos (GetNodePtr_norm f32 nodes size i)]

theorem cacheLookup_cons (e : ℤ × Node) (c : Cache) (i : ℤ) :
    cacheLookup (e :: c) i = if e.1 = i then some e.2 else cacheLookup c i := by
  unfold cacheLookup
  by_cases h : e.1 = i
  · simp [List.find?_cons, h]
  · simp [List.find?_cons, h]

theorem CInv_nil (f32 : ℕ → ℚ) (nodes : List ℕ) (size f : ℕ) :
    CInv f32 nodes size f [] := by
  intro i nd h
  simp [cacheLookup] at h

theorem CInv_insert {f32 : ℕ → ℚ} {nodes : List ℕ} {size f : ℕ} {c : Cache}
    (h : CInv f32 nodes size f c) (i : ℤ) :
    CInv f32 nodes size f ((i, decodeInit f32 nodes size f i) :: c) := by
  intro j nd hl
  rw [cacheLookup_cons] at hl
  by_cases hij : i = j
  · rw [if_pos hij] at hl
    rw [← hij]
    exact (Option.some_injective _ hl).symm
  · rw [if_neg hij] at hl
    exact h j nd hl

theorem getSim_mapped (f32 : ℕ → ℚ) (nodes : List ℕ) (size f : ℕ) :
    GetSim f (getNodeC f32 nodes size f true) (pureGet (GetNodePtr f32 nodes size))
      (fun _ _ => True) := by
  intro s₁ s₂ i _
  exact ⟨obsEq_refl f _, trivial⟩

theorem getSim_resident (f32 : ℕ → ℚ) (nodes : List ℕ) (size f : ℕ) :
    GetSim f (getNodeC f32 nodes size f false) (pureGet (GetNodePtr f32 nodes size))
      (fun c _ => CInv f32 nodes size f c) := by
  intro c u i hinv
  cases hl : cacheLookup c i with
  | some nd =>
    have hnd : nd = decodeInit f32 nodes size f i := hinv i nd hl
    have hg : getNodeC f32 nodes size f false c i = (nd, c) := by
      simp [getNodeC, hl]
    rw [hg]
    refine ⟨?_, hinv⟩
    rw [hnd]
    exact obsEq_decodeInit f32 nodes size f i
  | none =>
    have hg : getNodeC f32 nodes size f false c i =
        (decodeInit f32 nodes size f i, (i, decodeInit f32 nodes size f i) :: c) := by
      simp [getNodeC, hl, decodeInit]
    rw [hg]
    exact ⟨obsEq_decodeInit f32 nodes size f i, CInv_insert hinv i⟩

section Sim

variable {σ₁ σ₂ : Type} {g₁ : σ₁ → ℤ → Node × σ₁} {g₂ : σ₂ → ℤ → Node × σ₂}
variable {R : σ₁ → σ₂ → Prop} {f : ℕ}

theorem qStep_sim (hs : GetSim f g₁ g₂ R) (k nItems : ℤ) (v : List ℚ)
    (pq : List (Pr × ℤ)) (nns : List ℤ) {s₁ : σ₁} {s₂ : σ₂} (hR : R s₁ s₂) :
    (qStep g₁ f k nItems v pq nns s₁).1 = (qStep g₂ f k nItems v pq nns s₂).1 ∧
    (qStep g₁ f k nItems v pq nns s₁).2.1 = (qStep g₂ f k nItems v pq nns s₂).2.1 ∧
    R (qStep g₁ f k nItems v pq nns s₁).2.2 (qStep g₂ f k nItems v pq nns s₂).2.2 := by
  unfold qStep
  cases hpop : pqPop pq with
  | none => exact ⟨rfl, rfl, hR⟩
  | some mp =>
    obtain ⟨⟨d, i⟩, pq1⟩ := mp
    obtain ⟨hobs, hR1⟩ := hs s₁ s₂ i hR
    rcases hg1 : g₁ s₁ i with ⟨nd₁, t₁⟩
    rcases hg2 : g₂ s₂ i with ⟨nd₂, t₂⟩
    rw [hg1, hg2] at hobs hR1
    simp only at hobs hR1
    obtain ⟨hD, hC, hV, _⟩ := hobs
    simp only [hg1, hg2]
    have hM : Margin nd₁ v f = Margin nd₂ v f := by
      unfold Margin
      rw [hV]
    rw [hD, hC, hM]
    by_cases h1 : nd₂.Descendants = 1 ∧ i < nItems
    · rw [if_pos h1, if_pos h1]
      exact ⟨rfl, rfl, hR1⟩
    · rw [if_neg h1, if_neg h1]
      by_cases h2 : nd₂.Descendants ≤ k
      · rw [if_pos h2, if_pos h2]
        exact ⟨rfl, rfl, hR1⟩
      · rw [if_neg h2, if_neg h2]
        exact ⟨rfl, rfl, hR1⟩

theorem qLoop_sim (hs : GetSim f g₁ g₂ R) (k nItems : ℤ) (v : List ℚ)
    (searchK : ℤ) :
    ∀ (fuel : ℕ) (pq : List (Pr × ℤ)) (nns : List ℤ) {s₁ : σ₁} {s₂ : σ₂},
      R s₁ s₂ →
      (qLoop g₁ f k nItems v searchK fuel pq nns s₁ = none ∧
        qLoop g₂ f k nItems v searchK fuel pq nns s₂ = none) ∨
      ∃ nns1 t₁ t₂,
        qLoop g₁ f k nItems v searchK fuel pq nns s₁ = some (nns1, t₁) ∧
        qLoop g₂ f k nItems v searchK fuel pq nns s₂ = some (nns1, t₂) ∧ R t₁ t₂ := by
  intro fuel
  induction fuel with
  | zero =>
    intro pq nns s₁ s₂ hR
    unfold qLoop
    by_cases hcond : (nns.length : ℤ) < searchK ∧ pq ≠ []
    · rw [if_pos hcond, if_pos hcond]
      exact Or.inl ⟨rfl, rfl⟩
    · rw [if_neg hcond, if_neg hcond]
      exact Or.inr ⟨nns, s₁, s₂, rfl, rfl, hR⟩
  | succ n ih =>
    intro pq nns s₁ s₂ hR
    unfold qLoop
    by_cases hcond : (nns.length : ℤ) < searchK ∧ pq ≠ []
    · rw [if_pos hcond, if_pos hcond]
      obtain ⟨h1, h2, h3⟩ := qStep_sim hs k nItems v pq nns hR
      rcases hq1 : qStep g₁ f k nItems v pq nns s₁ with ⟨pqa, nnsa, ta⟩
      rcases hq2 : qStep g₂ f k nItems v pq nns s₂ with ⟨pqb, nnsb, tb⟩
      rw [hq1, hq2] at h1 h2 h3
      simp only at h1 h2 h3
      rw [h1, h2]
      exact ih pqb nnsb h3
    · rw [if_neg hcond, if_neg hcond]
      exact Or.inr ⟨nns, s₁, s₂, rfl, rfl, hR⟩

theorem fnFold_sim (hs : GetSim f g₁ g₂ R) (sq : ℚ → ℚ) (vNode : Node) :
    ∀ (uniq : List ℤ) (acc : List (ℚ × ℤ)) {s₁ : σ₁} {s₂ : σ₂}, R s₁ s₂ →
      (uniq.foldl (fnStep g₁ sq f vNode) (acc, s₁)).1 =
        (uniq.foldl (fnStep g₂ sq f vNode) (acc, s₂)).1 ∧
      R (uniq.foldl (fnStep g₁ sq f vNode) (acc, s₁)).2
        (uniq.foldl (fnStep g₂ sq f vNode) (acc, s₂)).2 := by
  intro uniq
  induction uniq with
  | nil => exact fun acc s₁ s₂ hR => ⟨rfl, hR⟩
  | cons j rest ih =>
    intro acc s₁ s₂ hR
    rw [List.foldl_cons, List.foldl_cons]
    have hstep :
        (fnStep g₁ sq f vNode (acc, s₁) j).1 = (fnStep g₂ sq f vNode (acc, s₂) j).1 ∧
        R (fnStep g₁ sq f vNode (acc, s₁) j).2 (fnStep g₂ sq f vNode (acc, s₂) j).2 := by
      unfold fnStep
      obtain ⟨hobs, hR1⟩ := hs s₁ s₂ j hR
      rcases hg1 : g₁ s₁ j with ⟨nd₁, t₁⟩
      rcases hg2 : g₂ s₂ j with ⟨nd₂, t₂⟩
      rw [hg1, hg2] at hobs hR1
      simp only at hobs hR1
      obtain ⟨hobs2, hR2⟩ := hs t₁ t₂ j hR1
      rcases hg1b : g₁ t₁ j with ⟨nd₁b, t₁b⟩
      rcases hg2b : g₂ t₂ j with ⟨nd₂b, t₂b⟩
      rw [hg1b, hg2b] at hobs2 hR2
      simp only at hobs2 hR2
      simp only [hg1, hg2, hg1b, hg2b]
      rw [hobs.1]
      by_cases h1 : nd₂.Descendants = 1
      · rw [if_pos h1, if_pos h1]
        exact ⟨by rw [Distance_obsEq sq vNode f hobs2], hR2⟩
      · rw [if_neg h1, if_neg h1]
        exact ⟨rfl, hR1⟩
    rcases hf1 : fnStep g₁ sq f vNode (acc, s₁) j with ⟨acc1, u₁⟩
    rcases hf2 : fnStep g₂ sq f vNode (acc, s₂) j with ⟨acc2, u₂⟩
    rw [hf1, hf2] at hstep
    simp only at hstep
    rw [hstep.1]
    exact ih acc2 hstep.2

theorem finalizeNns_sim (hs : GetSim f g₁ g₂ R) (sq : ℚ → ℚ) (vNode : Node)
    (nns : List ℤ) (n : ℤ) {s₁ : σ₁} {s₂ : σ₂} (hR : R s₁ s₂) :
    (finalizeNns g₁ sq f vNode nns n s₁).1 = (finalizeNns g₂ sq f vNode nns n s₂).1 ∧
    R (finalizeNns g₁ sq f vNode nns n s₁).2 (finalizeNns g₂ sq f vNode nns n s₂).2 := by
  obtain ⟨h1, h2⟩ := fnFold_sim hs sq vNode (dedupFO nns) [] hR
  simp only [finalizeNns]
  rw [h1]
  exact ⟨rfl, h2⟩

theorem getAllNnsS_sim (hs : GetSim f g₁ g₂ R) (sq : ℚ → ℚ) (k nItems : ℤ)
    (roots : List ℤ) (v : List ℚ) (n searchK : ℤ) (fuel : ℕ)
    (s₁ : σ₁) (s₂ : σ₂) (hR : R s₁ s₂) :
    (getAllNnsS g₁ sq f k nItems roots v n searchK fuel s₁).map (fun a => a.1) =
    (getAllNnsS g₂ sq f k nItems roots v n searchK fuel s₂).map (fun a => a.1) := by
  simp only [getAllNnsS]
  rcases qLoop_sim hs k nItems v
      (if searchK = -1 then n * (roots.length : ℤ) else searchK) fuel
      (roots.map (fun r => ((⊤ : Pr), r))) [] hR with
    ⟨hn1, hn2⟩ | ⟨nns1, t₁, t₂, hs1, hs2, hR1⟩
  · rw [hn1, hn2]
    rfl
  · rw [hs1, hs2]
    simp only [Option.map_some]
    exact congrArg some (finalizeNns_sim hs sq _ nns1 n hR1).1

theorem rootScanAux_sim (hs : GetSim f g₁ g₂ R) :
    ∀ (idxs : List ℤ) (m : ℤ) (s₁ : σ₁) (s₂ : σ₂), R s₁ s₂ →
      (rootScanAux g₁ idxs m s₁).1 = (rootScanAux g₂ idxs m s₂).1 ∧
      (rootScanAux g₁ idxs m s₁).2.1 = (rootScanAux g₂ idxs m s₂).2.1 ∧
      R (rootScanAux g₁ idxs m s₁).2.2 (rootScanAux g₂ idxs m s₂).2.2 := by
  intro idxs
  induction idxs with
  | nil => exact fun m s₁ s₂ hR => ⟨rfl, rfl, hR⟩
  | cons i rest ih =>
    intro m s₁ s₂ hR
    unfold rootScanAux
    obtain ⟨hobs, hR1⟩ := hs s₁ s₂ i hR
    rcases hg1 : g₁ s₁ i with ⟨nd₁, t₁⟩
    rcases hg2 : g₂ s₂ i with ⟨nd₂, t₂⟩
    rw [hg1, hg2] at hobs hR1
    simp only at hobs hR1
    simp only [hg1, hg2]
    rw [hobs.1]
    by_cases hcond : m = -1 ∨ nd₂.Descendants = m
    · rw [if_pos hcond, if_pos hcond]
      obtain ⟨ha, hb, hc⟩ := ih nd₂.Descendants _ _ hR1
      exact ⟨by rw [ha], hb, hc⟩
    · rw [if_neg hcond, if_neg hcond]
      exact ⟨rfl, rfl, hR1⟩

end Sim

/-- The root scan with a stateless fetch is the pure scan on the descendant
function. -/
theorem rootScanAux_pureGet (g : ℤ → Node) :
    ∀ (idxs : List ℤ) (m : ℤ) (u : Unit),
      rootScanAux (pureGet g) idxs m u =
        ((pureRootScanAux (fun i => (g i).Descendants) idxs m).1,
          (pureRootScanAux (fun i => (g i).Descendants) idxs m).2, u) := by
  intro idxs
  induction idxs with
  | nil => intro m u; rfl
  | cons i rest ih =>
    intro m u
    unfold rootScanAux pureRootScanAux
    by_cases hcond : m = -1 ∨ (g i).Descendants = m
    · simp only [pureGet, if_pos hcond, ih]
    · simp only [pureGet, if_neg hcond]

/-- Both backing modes are in simulation with the pure decoder, the cache
invariant being the relation (trivially preserved in mapped mode, where the
cache is bypassed and untouched). -/
theorem getSim_mode (f32 : ℕ → ℚ) (nodes : List ℕ) (size f : ℕ) (mapped : Bool) :
    GetSim f (getNodeC f32 nodes size f mapped) (pureGet (GetNodePtr f32 nodes size))
      (fun c _ => CInv f32 nodes size f c) := by
  cases mapped
  · exact getSim_resident f32 nodes size f
  · intro c u i hinv
    exact ⟨obsEq_refl f _, hinv⟩

theorem rootScan_mode (f32 : ℕ → ℚ) (bytes : List ℕ) (s f : ℕ) (mapped : Bool)
    {c : Cache} (hinv : CInv f32 bytes s f c) (idxs : List ℤ) (m : ℤ) :
    (rootScanAux (getNodeC f32 bytes s f mapped) idxs m c).1 =
      (pureRootScanAux (fun i => (GetNodePtr f32 bytes s i).Descendants) idxs m).1 ∧
    (rootScanAux (getNodeC f32 bytes s f mapped) idxs m c).2.1 =
      (pureRootScanAux (fun i => (GetNodePtr f32 bytes s i).Descendants) idxs m).2 ∧
    CInv f32 bytes s f (rootScanAux (getNodeC f32 bytes s f mapped) idxs m c).2.2 := by
  have h := rootScanAux_sim (getSim_mode f32 bytes s f mapped) idxs m _ () hinv
  rw [rootScanAux_pureGet] at h
  exact h

theorem getNodeC_mode (f32 : ℕ → ℚ) (bytes : List ℕ) (s f : ℕ) (mapped : Bool)
    {c : Cache} (hinv : CInv f32 bytes s f c) (i : ℤ) :
    ((getNodeC f32 bytes s f mapped c i).1).Children = (GetNodePtr f32 bytes s i).Children ∧
    CInv f32 bytes s f ((getNodeC f32 bytes s f mapped c i).2) := by
  have h := getSim_mode f32 bytes s f mapped c () i hinv
  exact ⟨h.1.2.1, h.2⟩

/-- The duplicate-root drop at the end of Load, related to its pure form:
the fetched children come from the decoder in either mode, and the cache
stays consistent. -/
theorem loadPost_spec (f32 : ℕ → ℚ) (bytes : List ℕ) (s f : ℕ) (mapped : Bool)
    {c1 : Cache} (hc : CInv f32 bytes s f c1) (roots0 : List ℤ) :
    (if 1 < roots0.length then
        let (ndA, ca) := getNodeC f32 bytes s f mapped c1 (roots0.headD 0)
        let (ndB, cb) := getNodeC f32 bytes s f mapped ca (roots0.getLastD 0)
        if ndA.Children.getD 0 0 = ndB.Children.getD 0 0 then (roots0.dropLast, cb)
        else (roots0, cb)
      else (roots0, c1)).1 =
      (if 1 < roots0.length ∧
          (GetNodePtr f32 bytes s (roots0.headD 0)).Children.getD 0 0 =
            (GetNodePtr f32 bytes s (roots0.getLastD 0)).Children.getD 0 0 then
        roots0.dropLast
      else roots0) ∧
    CInv f32 bytes s f
      (if 1 < roots0.length then
        let (ndA, ca) := getNodeC f32 bytes s f mapped c1 (roots0.headD 0)
        let (ndB, cb) := getNodeC f32 bytes s f mapped ca (roots0.getLastD 0)
        if ndA.Children.getD 0 0 = ndB.Children.getD 0 0 then (roots0.dropLast, cb)
        else (roots0, cb)
      else (roots0, c1)).2 := by
  by_cases hlen : 1 < roots0.length
  · rw [if_pos hlen]
    rcases hA : getNodeC f32 bytes s f mapped c1 (roots0.headD 0) with ⟨ndA, ca⟩
    have h1 := getNodeC_mode f32 bytes s f mapped hc (roots0.headD 0)
    rw [hA] at h1
    rcases hB : getNodeC f32 bytes s f mapped ca (roots0.getLastD 0) with ⟨ndB, cb⟩
    have h2 := getNodeC_mode f32 bytes s f mapped h1.2 (roots0.getLastD 0)
    rw [hB] at h2
    simp only at h1 h2
    simp only [hA, hB]
    by_cases heq : ndA.Children.getD 0 0 = ndB.Children.getD 0 0
    · have heqd : (GetNodePtr f32 bytes s (roots0.headD 0)).Children.getD 0 0 =
          (GetNodePtr f32 bytes s (roots0.getLastD 0)).Children.getD 0 0 := by
        rw [← h1.1, ← h2.1]
        exact heq
      rw [if_pos heq, if_pos ⟨hlen, heqd⟩]
      exact ⟨rfl, h2.2⟩
    · have heqd : ¬ ((GetNodePtr f32 bytes s (roots0.headD 0)).Children.getD 0 0 =
          (GetNodePtr f32 bytes s (roots0.getLastD 0)).Children.getD 0 0) := by
        rw [← h1.1, ← h2.1]
        exact heq
      rw [if_neg heq, if_neg (fun hh => heqd hh.2)]
      exact ⟨rfl, h2.2⟩
  · rw [if_neg hlen, if_neg (fun hh => hlen hh.1)]
    exact ⟨rfl, hc⟩

/-- After the structural validation passes, Load installs the bytes, sets
nNodes, and produces exactly the roots and item count of the pure reference
loadSpec, in either backing mode and from any consistent starting cache,
which stays consistent. -/
theorem Load_spec (f32 : ℕ → ℚ) (idx : AnnoyIndex) (bytes : List ℕ) (mem : Bool)
    (hne : bytes.length ≠ 0) (hmod : bytes.length % idx.s = 0)
    (hinv : CInv f32 bytes idx.s idx.f idx.cache) :
    (Load f32 idx bytes mem).2 = false ∧
    (Load f32 idx bytes mem).1.roots = (loadSpec f32 bytes idx.s).1 ∧
    (Load f32 idx bytes mem).1.nItems = (loadSpec f32 bytes idx.s).2 ∧
    (Load f32 idx bytes mem).1.nNodes = ((bytes.length / idx.s : ℕ) : ℤ) ∧
    (Load f32 idx bytes mem).1.nodes = some bytes ∧
    (Load f32 idx bytes mem).1.f = idx.f ∧
    (Load f32 idx bytes mem).1.s = idx.s ∧
    (Load f32 idx bytes mem).1.k = idx.k ∧
    (Load f32 idx bytes mem).1.mapped = !mem ∧
    CInv f32 bytes idx.s idx.f (Load f32 idx bytes mem).1.cache := by
  have hmod2 : ¬ bytes.length % idx.s ≠ 0 := not_not_intro hmod
  have key : ∀ (mapped : Bool),
      (rootScanAux (getNodeC f32 bytes idx.s idx.f mapped)
          (((List.range (bytes.length / idx.s)).reverse).map (fun j => (j : ℤ)))
          (-1) idx.cache).1 =
        (pureRootScanAux (fun i => (GetNodePtr f32 bytes idx.s i).Descendants)
          (((List.range (bytes.length / idx.s)).reverse).map (fun j => (j : ℤ)))
          (-1)).1 ∧
      (rootScanAux (getNodeC f32 bytes idx.s idx.f mapped)
          (((List.range (bytes.length / idx.s)).reverse).map (fun j => (j : ℤ)))
          (-1) idx.cache).2.1 =
        (pureRootScanAux (fun i => (GetNodePtr f32 bytes idx.s i).Descendants)
          (((List.range (bytes.length / idx.s)).reverse).map (fun j => (j : ℤ)))
          (-1)).2 ∧
      CInv f32 bytes idx.s idx.f
        (rootScanAux (getNodeC f32 bytes idx.s idx.f mapped)
          (((List.range (bytes.length / idx.s)).reverse).map (fun j => (j : ℤ)))
          (-1) idx.cache).2.2 :=
    fun mapped => rootScan_mode f32 bytes idx.s idx.f mapped hinv _ (-1)
  cases mem with
  | false =>
    simp only [Load, if_neg hne, if_neg hmod2, Bool.false_eq_true, if_false]
    obtain ⟨hr, hm, hc⟩ := key true
    rw [hr, hm]
    refine ⟨by (first | rfl | trivial), ?_, by (first | rfl | trivial), by (first | rfl | trivial), by (first | rfl | trivial), by (first | rfl | trivial), by (first | rfl | trivial), by (first | rfl | trivial), by (first | rfl | trivial), ?_⟩
    · rw [(loadPost_spec f32 bytes idx.s idx.f true hc
        (pureRootScanAux (fun i => (GetNodePtr f32 bytes idx.s i).Descendants)
          (((List.range (bytes.length / idx.s)).reverse).map (fun j => (j : ℤ))) (-1)).1).1]
      rfl
    · exact (loadPost_spec f32 bytes idx.s idx.f true hc
        (pureRootScanAux (fun i => (GetNodePtr f32 bytes idx.s i).Descendants)
          (((List.range (bytes.length / idx.s)).reverse).map (fun j => (j : ℤ))) (-1)).1).2
  | true =>
    simp only [Load, if_neg hne, if_neg hmod2, if_true]
    obtain ⟨hr, hm, hc⟩ := key false
    rw [hr, hm]
    refine ⟨by (first | rfl | trivial), ?_, by (first | rfl | trivial), by (first | rfl | trivial), by (first | rfl | trivial), by (first | rfl | trivial), by (first | rfl | trivial), by (first | rfl | trivial), by (first | rfl | trivial), ?_⟩
    · rw [(loadPost_spec f32 bytes idx.s idx.f false hc
        (pureRootScanAux (fun i => (GetNodePtr f32 bytes idx.s i).Descendants)
          (((List.range (bytes.length / idx.s)).reverse).map (fun j => (j : ℤ))) (-1)).1).1]
      rfl
    · exact (loadPost_spec f32 bytes idx.s idx.f false hc
        (pureRootScanAux (fun i => (GetNodePtr f32 bytes idx.s i).Descendants)
          (((List.range (bytes.length / idx.s)).reverse).map (fun j => (j : ℤ))) (-1)).1).2

theorem pqMeasure_perm (h : ℤ → ℕ) {pq1 pq2 : List (Pr × ℤ)} (hp : pq1.Perm pq2) :
    pqMeasure h pq1 = pqMeasure h pq2 := by
  unfold pqMeasure
  exact (hp.map _).sum_eq

theorem three_pow_add_lt {a b c : ℕ} (ha : a < c) (hb : b < c) :
    3 ^ a + 3 ^ b < 3 ^ c := by
  obtain ⟨d, rfl⟩ : ∃ d, c = d + 1 := ⟨c - 1, by omega⟩
  have h3 : (3 : ℕ) ^ a ≤ 3 ^ d := Nat.pow_le_pow_right (by norm_num) (by omega)
  have h4 : (3 : ℕ) ^ b ≤ 3 ^ d := Nat.pow_le_pow_right (by norm_num) (by omega)
  have h5 : 0 < (3 : ℕ) ^ d := pow_pos (by norm_num) d
  have h6 : (3 : ℕ) ^ (d + 1) = 3 * 3 ^ d := by ring
  omega

theorem qStep_cases (g : ℤ → Node) (f : ℕ) (k nItems : ℤ) (v : List ℚ)
    (pq : List (Pr × ℤ)) (nns : List ℤ) {d : Pr} {i : ℤ} {pq1 : List (Pr × ℤ)}
    (hpop : pqPop pq = some ((d, i), pq1)) :
    qStep (pureGet g) f k nItems v pq nns () =
      (if (g i).Descendants = 1 ∧ i < nItems then (pq1, nns ++ [i], ())
       else if (g i).Descendants ≤ k then
         (pq1, nns ++ (g i).Children.take (g i).Descendants.toNat, ())
       else
         ((PQDistance d (Margin (g i) v f) 0, (g i).Children.getD 0 0) ::
           (PQDistance d (Margin (g i) v f) 1, (g i).Children.getD 1 0) :: pq1,
           nns, ())) := by
  simp only [qStep, hpop, pureGet]

theorem qLoop_term (g : ℤ → Node) (f : ℕ) (k nItems : ℤ) (v : List ℚ)
    (searchK : ℤ) (h : ℤ → ℕ)
    (hd : ∀ i, k < (g i).Descendants →
      h ((g i).Children.getD 0 0) < h i ∧ h ((g i).Children.getD 1 0) < h i) :
    ∀ (fuel : ℕ) (pq : List (Pr × ℤ)) (nns : List ℤ),
      pqMeasure h pq < fuel →
      (qLoop (pureGet g) f k nItems v searchK fuel pq nns ()).isSome := by
  intro fuel
  induction fuel with
  | zero =>
    intro pq nns hm
    exact absurd hm (Nat.not_lt_zero _)
  | succ n ih =>
    intro pq nns hm
    rw [qLoop]
    by_cases hcond : (nns.length : ℤ) < searchK ∧ pq ≠ []
    · rw [if_pos hcond]
      obtain ⟨⟨d, i⟩, pq1, hpop⟩ := pqPop_isSome hcond.2
      have hmeq : pqMeasure h pq = 3 ^ h i + pqMeasure h pq1 := by
        have hp := pqMeasure_perm h (pqPop_perm hpop)
        simpa [pqMeasure] using hp
      have hpos : 0 < 3 ^ h i := pow_pos (by norm_num) _
      rw [qStep_cases g f k nItems v pq nns hpop]
      by_cases h1 : (g i).Descendants = 1 ∧ i < nItems
      · rw [if_pos h1]
        apply ih
        omega
      · rw [if_neg h1]
        by_cases h2 : (g i).Descendants ≤ k
        · rw [if_pos h2]
          apply ih
          omega
        · rw [if_neg h2]
          have hc := hd i (not_le.mp h2)
          have hlt := three_pow_add_lt hc.1 hc.2
          have hnew : pqMeasure h
              ((PQDistance d (Margin (g i) v f) 0, (g i).Children.getD 0 0) ::
                (PQDistance d (Margin (g i) v f) 1, (g i).Children.getD 1 0) :: pq1) =
              3 ^ h ((g i).Children.getD 0 0) +
                (3 ^ h ((g i).Children.getD 1 0) + pqMeasure h pq1) := by
            simp [pqMeasure]
          apply ih
          omega
    · rw [if_neg hcond]
      rfl

/-- Claim C1, counterexample.  The claim puts every record with
1 < descendants <= K (here K = (16-4)/4 = 3) in the children-only class with
no vector materialized, but on a record with descendants = 2 the decoder's
branch condition (descendants > 2) takes the vector branch and materializes
a one-element vector. -/
theorem C1_counterexample :
    ((1 : ℤ) < (GetNodePtr (fun _ => 0) C1bytes 16 0).Descendants ∧
      (GetNodePtr (fun _ => 0) C1bytes 16 0).Descendants ≤ ((16 - 4) / 4 : ℤ)) ∧
    (GetNodePtr (fun _ => 0) C1bytes 16 0).V ≠ [] := by
  decide

/-- Claim C1, amended: for stride 12 + 4f, the decoder branches on
2 < descendants <= K (with K = f + 2), reading K children indices at offset
+4 and no vector; otherwise (descendants <= 2, which includes 1 and 2, or
descendants > K) it reads exactly 2 children indices at offset +4 and f
little-endian 32-bit float words at offset +12 into the vector. -/
theorem C1_decoder_branches (f32 : ℕ → ℚ) (nodes : List ℕ) (f : ℕ) (i : ℤ) :
    (GetNodePtr f32 nodes (12 + f * 4) i).Descendants =
      toInt32 (readLE32 nodes (((12 + f * 4 : ℕ) : ℤ) * i)) ∧
    ((2 < (GetNodePtr f32 nodes (12 + f * 4) i).Descendants ∧
        (GetNodePtr f32 nodes (12 + f * 4) i).Descendants ≤ (f : ℤ) + 2) →
      (GetNodePtr f32 nodes (12 + f * 4) i).V = [] ∧
      (GetNodePtr f32 nodes (12 + f * 4) i).Children =
        (List.range (f + 2)).map (fun j =>
          toInt32 (readLE32 nodes (((12 + f * 4 : ℕ) : ℤ) * i + 4 + 4 * (j : ℤ))))) ∧
    (¬ (2 < (GetNodePtr f32 nodes (12 + f * 4) i).Descendants ∧
        (GetNodePtr f32 nodes (12 + f * 4) i).Descendants ≤ (f : ℤ) + 2) →
      (GetNodePtr f32 nodes (12 + f * 4) i).Children =
        (List.range 2).map (fun j =>
          toInt32 (readLE32 nodes (((12 + f * 4 : ℕ) : ℤ) * i + 4 + 4 * (j : ℤ)))) ∧
      (GetNodePtr f32 nodes (12 + f * 4) i).V =
        (List.range f).map (fun j =>
          f32 (readLE32 nodes (((12 + f * 4 : ℕ) : ℤ) * i + 12 + 4 * (j : ℤ))))) := by
  have harr : ((12 + f * 4) - 12) / 4 = f := by omega
  have hK : (((12 + f * 4 - 12) / 4 : ℕ) : ℤ) + 2 = (f : ℤ) + 2 := by
    rw [harr]
  simp only [GetNodePtr, harr]
  split
  · refine ⟨rfl, fun _ => ⟨rfl, rfl⟩, fun hn => absurd ?_ hn⟩
    simp only
    omega
  · refine ⟨rfl, fun hy => ?_, fun _ => ⟨rfl, rfl⟩⟩
    simp only at hy
    omega

/-- Claim C1, amended, witness at the descendants = 2 record: the vector
branch is taken and both children and the one-float vector are read. -/
theorem C1_decoder_branches_witness :
    (GetNodePtr (fun _ => 0) C1bytes (12 + 1 * 4) 0).Children =
      (List.range 2).map (fun j =>
        toInt32 (readLE32 C1bytes (((12 + 1 * 4 : ℕ) : ℤ) * 0 + 4 + 4 * (j : ℤ)))) ∧
    (GetNodePtr (fun _ => 0) C1bytes (12 + 1 * 4) 0).V =
      (List.range 1).map (fun j =>
        (fun _ => (0 : ℚ)) (readLE32 C1bytes (((12 + 1 * 4 : ℕ) : ℤ) * 0 + 12 + 4 * (j : ℤ)))) :=
  (C1_decoder_branches (fun _ => 0) C1bytes 1 0).2.2 (by decide)

/-- Claim C5: the angular distance is 2 - 2 dot / sqrt(pp qq) when pp qq is
positive, where pp and qq are the cached squared norms or, when the cached
value is 0, freshly computed dot products (that is exactly effNorm); it is 2
otherwise; and normalizeDistance is sqrt of the max with 0. -/
theorem C5_angular_formulas (sq : ℚ → ℚ) (x y : Node) (f : ℕ) (r : ℚ) :
    (0 < effNorm f x * effNorm f y →
      Distance sq x y f = 2 - 2 * Dot x.V y.V f / sq (effNorm f x * effNorm f y)) ∧
    (¬ 0 < effNorm f x * effNorm f y → Distance sq x y f = 2) ∧
    NormalizeDistance sq r = sq (max r 0) := by
  refine ⟨fun h => ?_, fun h => ?_, rfl⟩
  · rw [Distance_eq_eff, if_pos h]
  · rw [Distance_eq_eff, if_neg h]

/-- Claim C5, witness on unit vectors with empty norm caches. -/
theorem C5_angular_formulas_witness :
    Distance (fun q => q) (Node.mk 1 [] 4 [1]) (Node.mk 1 [] 4 [1]) 1 =
      2 - 2 * Dot [1] [1] 1 /
        ((fun q => q) (effNorm 1 (Node.mk 1 [] 4 [1]) * effNorm 1 (Node.mk 1 [] 4 [1]))) :=
  (C5_angular_formulas (fun q => q) (Node.mk 1 [] 4 [1]) (Node.mk 1 [] 4 [1]) 1 0).1
    (by norm_num [effNorm])

/-- Claim C9: when the backing file is empty or its length is not a positive
exact multiple of the record stride, Load reports an error and leaves roots,
item count, node count and backing bytes untouched. -/
theorem C9_load_validation (f32 : ℕ → ℚ) (idx : AnnoyIndex) (bytes : List ℕ)
    (mem : Bool) (hbad : ¬ (0 < bytes.length ∧ bytes.length % idx.s = 0)) :
    (Load f32 idx bytes mem).2 = true ∧
    (Load f32 idx bytes mem).1.roots = idx.roots ∧
    (Load f32 idx bytes mem).1.nItems = idx.nItems ∧
    (Load f32 idx bytes mem).1.nNodes = idx.nNodes ∧
    (Load f32 idx bytes mem).1.nodes = idx.nodes := by
  by_cases h0 : bytes.length = 0
  · simp only [Load, if_pos h0]
    exact ⟨by (first | rfl | trivial), by (first | rfl | trivial), by (first | rfl | trivial),
      by (first | rfl | trivial), by (first | rfl | trivial)⟩
  · have hmod : bytes.length % idx.s ≠ 0 := by
      intro hm
      exact hbad ⟨Nat.pos_of_ne_zero h0, hm⟩
    simp only [Load, if_neg h0, if_pos hmod]
    exact ⟨by (first | rfl | trivial), by (first | rfl | trivial), by (first | rfl | trivial),
      by (first | rfl | trivial), by (first | rfl | trivial)⟩

/-- Claim C9, witness: a one-byte file against stride 16. -/
theorem C9_load_validation_witness :
    (Load (fun _ => 0) (NewAnnoyIndex 1) [0] true).2 = true ∧
    (Load (fun _ => 0) (NewAnnoyIndex 1) [0] true).1.roots = (NewAnnoyIndex 1).roots ∧
    (Load (fun _ => 0) (NewAnnoyIndex 1) [0] true).1.nItems = (NewAnnoyIndex 1).nItems ∧
    (Load (fun _ => 0) (NewAnnoyIndex 1) [0] true).1.nNodes = (NewAnnoyIndex 1).nNodes ∧
    (Load (fun _ => 0) (NewAnnoyIndex 1) [0] true).1.nodes = (NewAnnoyIndex 1).nodes :=
  C9_load_validation (fun _ => 0) (NewAnnoyIndex 1) [0] true (by decide)

theorem pureRootScanAux_ne_sentinel (desc : ℤ → ℤ) :
    ∀ (idxs : List ℤ) (m : ℤ), m ≠ -1 →
      pureRootScanAux desc idxs m = (claimRootScanAux desc m idxs, m) := by
  intro idxs
  induction idxs with
  | nil => intro m hm; rfl
  | cons i rest ih =>
    intro m hm
    simp only [pureRootScanAux, claimRootScanAux]
    by_cases hd : desc i = m
    · rw [if_pos (Or.inr hd), if_pos hd, hd, ih m hm]
    · have hcond : ¬ (m = -1 ∨ desc i = m) := by
        rintro (h1 | h2)
        · exact hm h1
        · exact hd h2
      rw [if_neg hcond, if_neg hd]

/-- The pure load reference equals the root discovery described by claim C2
whenever the first visited node's descendants field is not the sentinel -1. -/
theorem loadSpec_claim (f32 : ℕ → ℚ) (bytes : List ℕ) (s : ℕ) (hs : 0 < s)
    (hne : bytes.length ≠ 0) (hmod : bytes.length % s = 0)
    (htop : (GetNodePtr f32 bytes s ((bytes.length / s - 1 : ℕ) : ℤ)).Descendants ≠ -1) :
    loadSpec f32 bytes s =
      (claimDedup (fun i => (GetNodePtr f32 bytes s i).Children.getD 0 0)
        (claimRootScan (fun i => (GetNodePtr f32 bytes s i).Descendants)
          (((List.range (bytes.length / s)).reverse).map (fun j => (j : ℤ)))).1,
       (claimRootScan (fun i => (GetNodePtr f32 bytes s i).Descendants)
         (((List.range (bytes.length / s)).reverse).map (fun j => (j : ℤ)))).2) := by
  have hdvd : s ∣ bytes.length := Nat.dvd_of_mod_eq_zero hmod
  have hN : 0 < bytes.length / s :=
    Nat.div_pos (Nat.le_of_dvd (Nat.pos_of_ne_zero hne) hdvd) hs
  obtain ⟨m, hm⟩ : ∃ m, bytes.length / s = m + 1 := ⟨bytes.length / s - 1, by omega⟩
  have hlist : ((List.range (bytes.length / s)).reverse).map (fun j => (j : ℤ)) =
      ((m : ℕ) : ℤ) :: ((List.range m).reverse).map (fun j => (j : ℤ)) := by
    rw [hm, List.range_succ]
    simp
  have htop2 : (GetNodePtr f32 bytes s ((m : ℕ) : ℤ)).Descendants ≠ -1 := by
    have hm1 : bytes.length / s - 1 = m := by omega
    rw [← hm1]
    exact htop
  have hstep : pureRootScanAux (fun i => (GetNodePtr f32 bytes s i).Descendants)
      (((m : ℕ) : ℤ) :: ((List.range m).reverse).map (fun j => (j : ℤ))) (-1) =
      (((m : ℕ) : ℤ) :: claimRootScanAux (fun i => (GetNodePtr f32 bytes s i).Descendants)
          ((GetNodePtr f32 bytes s ((m : ℕ) : ℤ)).Descendants)
          (((List.range m).reverse).map (fun j => (j : ℤ))),
        (GetNodePtr f32 bytes s ((m : ℕ) : ℤ)).Descendants) := by
    simp only [pureRootScanAux]
    rw [if_pos (Or.inl trivial)]
    rw [pureRootScanAux_ne_sentinel _ _ _ htop2]
  simp only [loadSpec, claimRootScan, claimDedup, hlist, hstep]

/-- Claim C2, counterexample.  On a file whose highest node has descendants
-1 (the scan's sentinel value), Load keeps collecting past the first
differing node — it takes node 0, whose descendants 7 is not equal to the
first node's -1 — and sets nItems to 7, while the claim's algorithm stops
with roots [1] and item count -1. -/
theorem C2_counterexample :
    (Load (fun _ => 0) (NewAnnoyIndex 1) C2bytes false).1.roots = [1, 0] ∧
    (Load (fun _ => 0) (NewAnnoyIndex 1) C2bytes false).1.nItems = 7 ∧
    claimRootScan (fun i => (GetNodePtr (fun _ => 0) C2bytes 16 i).Descendants) [1, 0] =
      ([1], -1) ∧
    (Load (fun _ => 0) (NewAnnoyIndex 1) C2bytes false).1.roots ≠
      claimDedup (fun i => (GetNodePtr (fun _ => 0) C2bytes 16 i).Children.getD 0 0)
        (claimRootScan (fun i => (GetNodePtr (fun _ => 0) C2bytes 16 i).Descendants) [1, 0]).1 ∧
    (Load (fun _ => 0) (NewAnnoyIndex 1) C2bytes false).1.nItems ≠
      (claimRootScan (fun i => (GetNodePtr (fun _ => 0) C2bytes 16 i).Descendants) [1, 0]).2 := by
  decide

/-- Claim C2, amended: provided the highest node's descendants value is not
the sentinel -1, Load discovers exactly the roots of the claimed top-down
scan (collect while equal to the first node's descendants value, stop at
the first difference), applies the claimed duplicate-root drop, and sets
nItems to the shared descendant value. -/
theorem C2_root_discovery (f32 : ℕ → ℚ) (f : ℕ) (bytes : List ℕ) (mem : Bool)
    (hne : bytes.length ≠ 0) (hmod : bytes.length % (12 + f * 4) = 0)
    (htop : (GetNodePtr f32 bytes (12 + f * 4)
        ((bytes.length / (12 + f * 4) - 1 : ℕ) : ℤ)).Descendants ≠ -1) :
    (Load f32 (NewAnnoyIndex f) bytes mem).2 = false ∧
    (Load f32 (NewAnnoyIndex f) bytes mem).1.roots =
      claimDedup (fun i => (GetNodePtr f32 bytes (12 + f * 4) i).Children.getD 0 0)
        (claimRootScan (fun i => (GetNodePtr f32 bytes (12 + f * 4) i).Descendants)
          (((List.range (bytes.length / (12 + f * 4))).reverse).map (fun j => (j : ℤ)))).1 ∧
    (Load f32 (NewAnnoyIndex f) bytes mem).1.nItems =
      (claimRootScan (fun i => (GetNodePtr f32 bytes (12 + f * 4) i).Descendants)
        (((List.range (bytes.length / (12 + f * 4))).reverse).map (fun j => (j : ℤ)))).2 := by
  have hclaim := loadSpec_claim f32 bytes (12 + f * 4) (by omega) hne hmod htop
  obtain ⟨he, hroots, hitems, _⟩ :=
    Load_spec f32 (NewAnnoyIndex f) bytes mem hne hmod
      (CInv_nil f32 bytes (NewAnnoyIndex f).s (NewAnnoyIndex f).f)
  refine ⟨he, ?_, ?_⟩
  · rw [hroots]
    have hss : (NewAnnoyIndex f).s = 12 + f * 4 := by
      simp [NewAnnoyIndex]
    rw [hss, hclaim]
  · rw [hitems]
    have hss : (NewAnnoyIndex f).s = 12 + f * 4 := by
      simp [NewAnnoyIndex]
    rw [hss, hclaim]

/-- Claim C2, amended, witness on a two-root fixture with distinct first
children (top descendants value 1, not the sentinel). -/
theorem C2_root_discovery_witness :
    (Load (fun _ => 0) (NewAnnoyIndex 1) C2goodBytes true).2 = false ∧
    (Load (fun _ => 0) (NewAnnoyIndex 1) C2goodBytes true).1.roots =
      claimDedup (fun i => (GetNodePtr (fun _ => 0) C2goodBytes (12 + 1 * 4) i).Children.getD 0 0)
        (claimRootScan (fun i => (GetNodePtr (fun _ => 0) C2goodBytes (12 + 1 * 4) i).Descendants)
          (((List.range (C2goodBytes.length / (12 + 1 * 4))).reverse).map (fun j => (j : ℤ)))).1 ∧
    (Load (fun _ => 0) (NewAnnoyIndex 1) C2goodBytes true).1.nItems =
      (claimRootScan (fun i => (GetNodePtr (fun _ => 0) C2goodBytes (12 + 1 * 4) i).Descendants)
        (((List.range (C2goodBytes.length / (12 + 1 * 4))).reverse).map (fun j => (j : ℤ)))).2 :=
  C2_root_discovery (fun _ => 0) 1 C2goodBytes true (by decide) (by decide) (by decide)

/-- Claim C4, code bug at work.  On the C4 fixture the only unique candidate
is node 0, which is not a singleton leaf (descendants 0), so the claim says
both returned sequences have length min(1, 0) = 0; the code instead counts
the preallocated zero slot (m is taken as the size of the whole
deduplicated set, not the number of leaf pairs written) and returns item 0
with distance 0, in both backing modes. -/
theorem C4_eval :
    loadAndQuery (fun q => q) (fun _ => 0) C4bytes 1 true [0] 1 1 1 = some ([0], [0]) ∧
    loadAndQuery (fun q => q) (fun _ => 0) C4bytes 1 false [0] 1 1 1 = some ([0], [0]) ∧
    (GetNodePtr (fun _ => 0) C4bytes 16 0).Descendants = 0 ∧
    ((dedupFO [0, 0]).filter
      (fun j => (GetNodePtr (fun _ => 0) C4bytes 16 j).Descendants = 1)).length = 0 := by
  decide

/-- Claim C7, code bug at work.  The returned index 0 on the C4 fixture is
not a singleton-leaf candidate at all (descendants 0), and its reported
distance 0 is the preallocated zero slot, not a normalized metric distance
of a leaf candidate, so the returned sequences are not the sorted,
truncated, index-aligned singleton-leaf candidates the claim describes. -/
theorem C7_eval :
    loadAndQuery (fun q => q) (fun _ => 0) C4bytes 1 true [0] 2 1 1 = some ([0], [0]) ∧
    ¬ (GetNodePtr (fun _ => 0) C4bytes 16 0).Descendants = 1 := by
  decide

/-- Claim C3: each loop iteration pops a pair that is maximal in the
frontier order, and then: appends the node index itself exactly in the
leaf case (descendants = 1 and index below itemCount); appends the first
descendants-many children in the bucket case (descendants at most K);
otherwise pushes child slot 0 with priority pqDistance(bound, margin, 0)
and child slot 1 with priority pqDistance(bound, margin, 1).  In
particular a popped node with descendants = 1 but index at least itemCount
contributes its first child index, not the index it was popped with. -/
theorem C3_query_step {σ : Type} (get : σ → ℤ → Node × σ) (f : ℕ) (k nItems : ℤ)
    (v : List ℚ) (pq : List (Pr × ℤ)) (nns : List ℤ) (s : σ) (nd : Node) (s1 : σ)
    {d : Pr} {i : ℤ} {pq1 : List (Pr × ℤ)}
    (hpop : pqPop pq = some ((d, i), pq1)) (hget : get s i = (nd, s1)) :
    ((d, i) ∈ pq ∧ (∀ e ∈ pq, ¬ pqLt (d, i) e)) ∧
    (nd.Descendants = 1 ∧ i < nItems →
      qStep get f k nItems v pq nns s = (pq1, nns ++ [i], s1)) ∧
    (¬ (nd.Descendants = 1 ∧ i < nItems) → nd.Descendants ≤ k →
      qStep get f k nItems v pq nns s =
        (pq1, nns ++ nd.Children.take nd.Descendants.toNat, s1)) ∧
    (¬ (nd.Descendants = 1 ∧ i < nItems) → ¬ nd.Descendants ≤ k →
      qStep get f k nItems v pq nns s =
        ((PQDistance d (Margin nd v f) 0, nd.Children.getD 0 0) ::
          (PQDistance d (Margin nd v f) 1, nd.Children.getD 1 0) :: pq1, nns, s1)) ∧
    (nd.Descendants = 1 → nItems ≤ i → 1 ≤ k → ∀ (c0 : ℤ) (cr : List ℤ),
      nd.Children = c0 :: cr →
      qStep get f k nItems v pq nns s = (pq1, nns ++ [c0], s1)) := by
  obtain ⟨hmem, _, hmax⟩ := pqPop_spec hpop
  have hq : qStep get f k nItems v pq nns s =
      (if nd.Descendants = 1 ∧ i < nItems then (pq1, nns ++ [i], s1)
       else if nd.Descendants ≤ k then
         (pq1, nns ++ nd.Children.take nd.Descendants.toNat, s1)
       else ((PQDistance d (Margin nd v f) 0, nd.Children.getD 0 0) ::
         (PQDistance d (Margin nd v f) 1, nd.Children.getD 1 0) :: pq1, nns, s1)) := by
    simp only [qStep, hpop, hget]
  refine ⟨⟨hmem, hmax⟩, fun h1 => ?_, fun h1 h2 => ?_, fun h1 h2 => ?_,
    fun h1 h2 h3 c0 cr hc => ?_⟩
  · rw [hq, if_pos h1]
  · rw [hq, if_neg h1, if_pos h2]
  · rw [hq, if_neg h1, if_neg h2]
  · have hn1 : ¬ (nd.Descendants = 1 ∧ i < nItems) := fun hh => absurd hh.2 (not_lt.mpr h2)
    have hk : nd.Descendants ≤ k := by
      rw [h1]
      exact h3
    rw [hq, if_neg hn1, if_pos hk, hc, h1]
    simp

/-- A generic node function for the C3 witness: a singleton-leaf record with
children 5 and 9 at every index. -/
def g3w : ℤ → Node := fun _ => Node.mk 1 [5, 9] 0 []

/-- Claim C3, witness: popping node 3 (at or above itemCount 2) with
descendants 1 appends its first child index 5, not 3. -/
theorem C3_query_step_witness :
    qStep (pureGet g3w) 1 3 2 [0] [((⊤ : Pr), (3 : ℤ))] [] () = ([], [] ++ [5], ()) :=
  (C3_query_step (pureGet g3w) 1 3 2 [0] [((⊤ : Pr), (3 : ℤ))] [] () (g3w 3) ()
    (by decide :
      pqPop [((⊤ : Pr), (3 : ℤ))] = some ((((⊤ : Pr), (3 : ℤ))), []))
    rfl).2.2.2.2 rfl (by decide) (by decide) 5 [9] rfl

theorem GetNodePtr_descendants (f32 : ℕ → ℚ) (nodes : List ℕ) (size : ℕ) (i : ℤ) :
    (GetNodePtr f32 nodes size i).Descendants =
      toInt32 (readLE32 nodes ((size : ℤ) * i)) := by
  simp only [GetNodePtr]
  split <;> rfl

theorem GetNodePtr_nil_desc (f32 : ℕ → ℚ) (size : ℕ) (i : ℤ) :
    (GetNodePtr f32 [] size i).Descendants = 0 := by
  have hb : ∀ off : ℤ, bget [] off = 0 := by
    intro off
    unfold bget
    split
    · rfl
    · simp [List.getD]
  have hr : readLE32 [] ((size : ℤ) * i) = 0 := by
    simp [readLE32, hb]
  rw [GetNodePtr_descendants, hr]
  decide

/-- Claim C10: when some rank function decreases across the two children of
every split node (descendants above K) — the acyclicity precondition —
the best-first loop finishes within fuel equal to the frontier measure, for
every query vector, n and searchBudget; and that precondition is not
superfluous: on the one-node index C10bytes, whose split root is its own
child on both sides, the loop runs forever. -/
theorem C10_termination (g : ℤ → Node) (sq : ℚ → ℚ) (f : ℕ) (k nItems : ℤ)
    (roots : List ℤ) (v : List ℚ) (n searchK : ℤ)
    (hac : ∃ h : ℤ → ℕ, ∀ i, k < (g i).Descendants →
      h ((g i).Children.getD 0 0) < h i ∧ h ((g i).Children.getD 1 0) < h i) :
    (∃ fuel, (getAllNnsS (pureGet g) sq f k nItems roots v n searchK fuel ()).isSome) ∧
    ((Load (fun _ => 0) (NewAnnoyIndex 1) C10bytes false).1.roots = [0] ∧
      (Load (fun _ => 0) (NewAnnoyIndex 1) C10bytes false).1.nItems = 4) ∧
    (∀ fuel, getAllNnsS (pureGet (GetNodePtr (fun _ => 0) C10bytes 16)) sq 1 3 4 [0]
      [0] 1 1 fuel () = none) := by
  refine ⟨?_, by decide, ?_⟩
  · obtain ⟨h, hd⟩ := hac
    refine ⟨pqMeasure h (roots.map (fun r => ((⊤ : Pr), r))) + 1, ?_⟩
    have ht := qLoop_term g f k nItems v
      (if searchK = -1 then n * (roots.length : ℤ) else searchK) h hd
      (pqMeasure h (roots.map (fun r => ((⊤ : Pr), r))) + 1)
      (roots.map (fun r => ((⊤ : Pr), r))) [] (by omega)
    simp only [getAllNnsS]
    rcases hq : qLoop (pureGet g) f k nItems v
        (if searchK = -1 then n * (roots.length : ℤ) else searchK)
        (pqMeasure h (roots.map (fun r => ((⊤ : Pr), r))) + 1)
        (roots.map (fun r => ((⊤ : Pr), r))) [] () with _ | p
    · rw [hq] at ht
      exact absurd ht (by simp)
    · cases p
      simp
  · have key : ∀ (fl : ℕ) (pq : List (Pr × ℤ)) (nns : List ℤ), pq ≠ [] →
        (∀ e ∈ pq, e.2 = 0) → nns = [] →
        qLoop (pureGet (GetNodePtr (fun _ => 0) C10bytes 16)) 1 3 4 [0] 1 fl pq nns () =
          none := by
      intro fl
      induction fl with
      | zero =>
        intro pq nns hpq hmem hnns
        subst hnns
        simp only [qLoop]
        rw [if_pos ⟨by decide, hpq⟩]
      | succ fl ih =>
        intro pq nns hpq hmem hnns
        subst hnns
        obtain ⟨⟨d, i⟩, pq1, hpop⟩ := pqPop_isSome hpq
        have hi : i = 0 := hmem (d, i) (pqPop_spec hpop).1
        subst hi
        have hnode : GetNodePtr (fun _ => 0) C10bytes 16 0 = Node.mk 4 [0, 0] 0 [0] := by
          decide
        simp only [qLoop]
        rw [if_pos ⟨by decide, hpq⟩]
        rw [qStep_cases (GetNodePtr (fun _ => 0) C10bytes 16) 1 3 4 [0] pq [] hpop]
        rw [hnode]
        rw [if_neg (by decide), if_neg (by decide)]
        apply ih
        · exact List.cons_ne_nil _ _
        · intro e he
          rcases List.mem_cons.mp he with he | he
          · rw [he]
            rfl
          rcases List.mem_cons.mp he with he | he
          · rw [he]
            rfl
          · exact hmem e ((pqPop_perm hpop).symm.subset (List.mem_cons_of_mem _ he))

        · rfl
    intro fuel
    simp only [getAllNnsS]
    rw [if_neg (by decide : ¬ (1 : ℤ) = -1)]
    rw [key fuel (List.map (fun r => ((⊤ : Pr), r)) [0]) [] (by decide) (by decide) rfl]

/-- Claim C10, witness: over an empty byte region every node decodes with
descendants 0, no node is a split node, and the constant rank certifies
termination. -/
theorem C10_termination_witness :
    ∃ fuel, (getAllNnsS (pureGet (GetNodePtr (fun _ => 0) ([] : List ℕ) 16)) (fun q => q)
      1 3 0 [0] [0] 1 1 fuel ()).isSome :=
  (C10_termination (GetNodePtr (fun _ => 0) [] 16) (fun q => q) 1 3 0 [0] [0] 1 1
    ⟨fun _ => 0, fun i hlt => by
      rw [GetNodePtr_nil_desc] at hlt
      exact absurd hlt (by decide)⟩).1

/-- Claim C6: for every byte source, query vector, n and searchBudget (and
any fuel), loading into a fresh index in resident mode (memory = true, node
lookups through the lazily populated cache with initNode on vector-carrying
nodes) and in mapped mode (memory = false, lookups decode directly) give
identical (indices, distances). -/
theorem C6_mode_equivalence (sq : ℚ → ℚ) (f32 : ℕ → ℚ) (bytes : List ℕ) (f : ℕ)
    (v : List ℚ) (n searchK : ℤ) (fuel : ℕ) :
    loadAndQuery sq f32 bytes f true v n searchK fuel =
      loadAndQuery sq f32 bytes f false v n searchK fuel := by
  by_cases hne : bytes.length = 0
  · simp [loadAndQuery, Load, hne]
  by_cases hmod : bytes.length % (NewAnnoyIndex f).s = 0
  · obtain ⟨e1, r1, i1, _, b1, f1, s1, k1, m1, c1⟩ :=
      Load_spec f32 (NewAnnoyIndex f) bytes true hne hmod
        (CInv_nil f32 bytes (NewAnnoyIndex f).s (NewAnnoyIndex f).f)
    obtain ⟨e2, r2, i2, _, b2, f2, s2, k2, m2, c2⟩ :=
      Load_spec f32 (NewAnnoyIndex f) bytes false hne hmod
        (CInv_nil f32 bytes (NewAnnoyIndex f).s (NewAnnoyIndex f).f)
    simp only [loadAndQuery, e1, e2]
    rw [if_neg (by decide : ¬ (false = true))]
    simp only [GetNnsByVector]
    rw [b1, b2, f1, f2, s1, s2, k1, k2, i1, i2, r1, r2, m1, m2]
    simp only [Option.getD_some, Bool.not_true, Bool.not_false]
    have h1 := getAllNnsS_sim
      (getSim_mode f32 bytes (NewAnnoyIndex f).s (NewAnnoyIndex f).f false) sq
      (NewAnnoyIndex f).k (loadSpec f32 bytes (NewAnnoyIndex f).s).2
      (loadSpec f32 bytes (NewAnnoyIndex f).s).1 v n searchK fuel
      _ () c1
    have h2 := getAllNnsS_sim
      (getSim_mode f32 bytes (NewAnnoyIndex f).s (NewAnnoyIndex f).f true) sq
      (NewAnnoyIndex f).k (loadSpec f32 bytes (NewAnnoyIndex f).s).2
      (loadSpec f32 bytes (NewAnnoyIndex f).s).1 v n searchK fuel
      _ () c2
    exact h1.trans h2.symm
  · have hmod2 : bytes.length % (NewAnnoyIndex f).s ≠ 0 := hmod
    simp [loadAndQuery, Load, hne, hmod2]

/-- A loaded-looking index state whose cache holds one node, for the C8
counterexample. -/
def C8index : AnnoyIndex :=
  { f := 1, s := 16, k := 3, nItems := 4, nNodes := 1, nodes := some C10bytes
    roots := [0], cache := [(0, Node.mk 4 [0, 0] 0 [0])], fdOpen := true
    mapped := false }

/-- Claim C8, counterexample: Unload does not clear the node cache — after
Unload the cache still holds its entry (reinitialize resets fd, bytes,
counts and roots but never touches the cache map). -/
theorem C8_counterexample :
    (Unload C8index).cache = [(0, Node.mk 4 [0, 0] 0 [0])] ∧
    (Unload C8index).cache ≠ [] := by
  decide

/-- Claim C8, amended: Unload drops the backing bytes, clears the root set,
and resets item and node counts to zero, but leaves the node cache in
place; for an index whose cache is consistent with a file's bytes (as after
loading and querying that same file), Unload followed by Load of those
bytes reports no error and yields the same item count, the same roots (so
the same tree count) and the same query results as a freshly constructed
index loaded from the same bytes. -/
theorem C8_unload_reload (sq : ℚ → ℚ) (f32 : ℕ → ℚ) (idx : AnnoyIndex)
    (bytes : List ℕ) (mem : Bool) (v : List ℚ) (n searchK : ℤ) (fuel : ℕ)
    (hsf : idx.s = (NewAnnoyIndex idx.f).s) (hkf : idx.k = (NewAnnoyIndex idx.f).k)
    (hne : bytes.length ≠ 0) (hmod : bytes.length % idx.s = 0)
    (hinv : CInv f32 bytes idx.s idx.f idx.cache) :
    (Unload idx).nodes = none ∧ (Unload idx).roots = [] ∧
    (Unload idx).nItems = 0 ∧ (Unload idx).nNodes = 0 ∧
    (Unload idx).cache = idx.cache ∧
    (Load f32 (Unload idx) bytes mem).2 = false ∧
    (Load f32 (NewAnnoyIndex idx.f) bytes mem).2 = false ∧
    (Load f32 (Unload idx) bytes mem).1.nItems =
      (Load f32 (NewAnnoyIndex idx.f) bytes mem).1.nItems ∧
    (Load f32 (Unload idx) bytes mem).1.roots =
      (Load f32 (NewAnnoyIndex idx.f) bytes mem).1.roots ∧
    (GetNnsByVector sq f32 (Load f32 (Unload idx) bytes mem).1 v n searchK fuel).map
        (fun a => a.1) =
      (GetNnsByVector sq f32 (Load f32 (NewAnnoyIndex idx.f) bytes mem).1 v n
        searchK fuel).map (fun a => a.1) := by
  obtain ⟨mp, hU⟩ : ∃ mp, Unload idx = { idx with fdOpen := false, nodes := none, nItems := 0, nNodes := 0, roots := [], mapped := mp } := by
    unfold Unload reinitialize
    by_cases h1 : idx.fdOpen
    · rw [if_pos h1]
      exact ⟨false, rfl⟩
    · rw [if_neg h1]
      by_cases h2 : idx.nodes ≠ none
      · rw [if_pos h2]
        exact ⟨idx.mapped, rfl⟩
      · rw [if_neg h2]
        exact ⟨idx.mapped, rfl⟩
  have hU5 : (Unload idx).cache = idx.cache := by
    rw [hU]
  obtain ⟨eL, rL, iL, _, bL, fL, sL, kL, mL, cL⟩ :=
    Load_spec f32 (Unload idx) bytes mem hne
      (by rw [hU]; exact hmod) (by rw [hU]; exact hinv)
  obtain ⟨eR, rR, iR, _, bR, fR, sR, kR, mR, cR⟩ :=
    Load_spec f32 (NewAnnoyIndex idx.f) bytes mem hne
      (by rw [← hsf]; exact hmod)
      (CInv_nil f32 bytes (NewAnnoyIndex idx.f).s (NewAnnoyIndex idx.f).f)
  have hsU : (Unload idx).s = idx.s := by
    rw [hU]
  have hfU : (Unload idx).f = idx.f := by
    rw [hU]
  have hkU : (Unload idx).k = idx.k := by
    rw [hU]
  refine ⟨by rw [hU], by rw [hU], by rw [hU], by rw [hU], hU5, eL, eR, ?_, ?_, ?_⟩
  · rw [iL, iR, hsU, hsf]
  · rw [rL, rR, hsU, hsf]
  · simp only [GetNnsByVector]
    rw [bL, bR, fL, fR, sL, sR, kL, kR, iL, iR, rL, rR, mL, mR]
    simp only [Option.getD_some]
    rw [hsU, hfU, hkU, hsf, hkf]
    have hL := getAllNnsS_sim
      (getSim_mode f32 bytes (NewAnnoyIndex idx.f).s (NewAnnoyIndex idx.f).f (!mem)) sq
      (NewAnnoyIndex idx.f).k (loadSpec f32 bytes (NewAnnoyIndex idx.f).s).2
      (loadSpec f32 bytes (NewAnnoyIndex idx.f).s).1 v n searchK fuel
      _ () (by rw [← hsf, ← hfU, ← hsU]; exact cL)
    have hR := getAllNnsS_sim
      (getSim_mode f32 bytes (NewAnnoyIndex idx.f).s (NewAnnoyIndex idx.f).f (!mem)) sq
      (NewAnnoyIndex idx.f).k (loadSpec f32 bytes (NewAnnoyIndex idx.f).s).2
      (loadSpec f32 bytes (NewAnnoyIndex idx.f).s).1 v n searchK fuel
      _ () cR
    exact hL.trans hR.symm

/-- Claim C8, amended, witness: a fresh index for dimensionality 1 (empty,
trivially consistent cache) unloaded and reloaded from the two-leaf
fixture. -/
theorem C8_unload_reload_witness :
    (Unload (NewAnnoyIndex 1)).nodes = none ∧ (Unload (NewAnnoyIndex 1)).roots = [] ∧
    (Unload (NewAnnoyIndex 1)).nItems = 0 ∧ (Unload (NewAnnoyIndex 1)).nNodes = 0 ∧
    (Unload (NewAnnoyIndex 1)).cache = (NewAnnoyIndex 1).cache ∧
    (Load (fun _ => 0) (Unload (NewAnnoyIndex 1)) C2goodBytes true).2 = false ∧
    (Load (fun _ => 0) (NewAnnoyIndex (NewAnnoyIndex 1).f) C2goodBytes true).2 = false ∧
    (Load (fun _ => 0) (Unload (NewAnnoyIndex 1)) C2goodBytes true).1.nItems =
      (Load (fun _ => 0) (NewAnnoyIndex (NewAnnoyIndex 1).f) C2goodBytes true).1.nItems ∧
    (Load (fun _ => 0) (Unload (NewAnnoyIndex 1)) C2goodBytes true).1.roots =
      (Load (fun _ => 0) (NewAnnoyIndex (NewAnnoyIndex 1).f) C2goodBytes true).1.roots ∧
    (GetNnsByVector (fun q => q) (fun _ => 0)
        (Load (fun _ => 0) (Unload (NewAnnoyIndex 1)) C2goodBytes true).1 [0] 1 1 3).map
        (fun a => a.1) =
      (GetNnsByVector (fun q => q) (fun _ => 0)
        (Load (fun _ => 0) (NewAnnoyIndex (NewAnnoyIndex 1).f) C2goodBytes true).1 [0] 1
        1 3).map (fun a => a.1) :=
  C8_unload_reload (fun q => q) (fun _ => 0) (NewAnnoyIndex 1) C2goodBytes true [0] 1 1 3
    rfl rfl (by decide) (by decide)
    (CInv_nil (fun _ => 0) C2goodBytes (NewAnnoyIndex 1).s (NewAnnoyIndex 1).f)

end AnnoyGo
